/-
Verification of the `upsched` upload scheduler (package `upsched`,
file `upsched.go`) against its natural-language specification.

The Go code is shallowly embedded as follows:
* the haxmap registry becomes an association list `List (K × upload)`;
  `Get` / `Set` / `Del` become `mapGet` / `mapSet` / `mapDel`;
* `time.Duration` values are `Int` counts of nanoseconds (Go's int64
  representation); the int64 overflow of `time.Second * time.Duration(timeout)`
  in `Prepare` is modelled by `wrap64`;
* each `*time.Timer` gets an identity (a `Nat` allocated by a counter) and a
  state: the key captured by its `time.AfterFunc` closure, its absolute
  firing deadline in nanoseconds, and whether it is currently armed.
  `Stop` disarms, `Reset` rearms; a single-shot timer disarms itself when it
  fires and then runs its closure;
* the `cb` callback registered by `Prepare` is observed through a log
  `fired : List (Nat × K × Option String)` recording, for each invocation,
  the identity of the timer whose closure invoked it, the key, and the error
  argument (`none` for Go `nil`);
* `Append`'s `io.Copy(dst, chunk)` is driven by a `CopyOutcome` describing
  the bytes the copy wrote to `dst` and the error it returned, if any;
* real time is an explicit parameter: every operation happens at an absolute
  time `now : Int` (nanoseconds), and between operations every armed timer
  whose deadline has passed fires (`advanceTo`).  A sequential interleaving
  of operations and timer callbacks is modelled; the claims under study are
  all statements about such interleavings.
-/
import Mathlib

set_option linter.unusedSectionVars false

namespace Gouda

/-- `time.Second` in nanoseconds: Go durations are int64 nanosecond counts. -/
def nsPerSecond : Int := 1000000000

/-- Two's-complement wrap-around of signed 64-bit multiplication/addition,
matching Go's int64 overflow behaviour. -/
def wrap64 (x : Int) : Int := (x + 2 ^ 63) % 2 ^ 64 - 2 ^ 63

theorem wrap64_eq_self {x : Int} (h1 : -(2 ^ 63) ≤ x) (h2 : x < 2 ^ 63) :
    wrap64 x = x := by
  unfold wrap64
  have h0 : (0 : Int) ≤ x + 2 ^ 63 := by linarith
  have hlt : x + 2 ^ 63 < 2 ^ 64 := by norm_num at h2 ⊢; linarith
  rw [Int.emod_eq_of_lt h0 hlt]
  ring

section Maps

variable {K : Type} [DecidableEq K] {A : Type}

/-- `haxmap.Map.Get`: the value stored under key `k`, if any. -/
def mapGet (l : List (K × A)) (k : K) : Option A :=
  match l with
  | [] => none
  | (k', v) :: rest => if k' = k then some v else mapGet rest k

/-- `haxmap.Map.Set`: replace the value under `k` if present, else insert. -/
def mapSet (l : List (K × A)) (k : K) (v : A) : List (K × A) :=
  match l with
  | [] => [(k, v)]
  | (k', v') :: rest => if k' = k then (k, v) :: rest else (k', v') :: mapSet rest k v

/-- `haxmap.Map.Del`: remove the entries stored under `k`. -/
def mapDel (l : List (K × A)) (k : K) : List (K × A) :=
  l.filter (fun p => decide (p.1 ≠ k))

@[simp] theorem mapGet_nil {k : K} : mapGet ([] : List (K × A)) k = none := rfl

theorem mapGet_cons {k k' : K} {v : A} {rest : List (K × A)} :
    mapGet ((k', v) :: rest) k = if k' = k then some v else mapGet rest k := rfl

@[simp] theorem mapGet_mapSet_self {l : List (K × A)} {k : K} {v : A} :
    mapGet (mapSet l k v) k = some v := by
  induction l with
  | nil => simp [mapSet, mapGet]
  | cons p rest ih =>
    obtain ⟨k', w⟩ := p
    by_cases hk : k' = k
    · simp [mapSet, hk, mapGet]
    · simp only [mapSet, if_neg hk, mapGet_cons, if_neg hk]
      exact ih

theorem mapGet_mapSet_ne {l : List (K × A)} {k k' : K} {v : A} (h : k' ≠ k) :
    mapGet (mapSet l k v) k' = mapGet l k' := by
  induction l with
  | nil => simp [mapSet, mapGet_cons, Ne.symm h]
  | cons p rest ih =>
    obtain ⟨a, w⟩ := p
    by_cases ha : a = k
    · subst ha
      have h1 : a ≠ k' := fun hh => h hh.symm
      simp [mapSet, mapGet_cons, h1]
    · simp only [mapSet, if_neg ha, mapGet_cons]
      by_cases ha' : a = k'
      · simp [ha']
      · simp only [if_neg ha', ih]

theorem not_mem_of_mapGet_eq_none {l : List (K × A)} {k : K}
    (h : mapGet l k = none) : ∀ p ∈ l, p.1 ≠ k := by
  induction l with
  | nil => intro p hp; simp at hp
  | cons q rest ih =>
    obtain ⟨a, b⟩ := q
    rw [mapGet_cons] at h
    by_cases ha : a = k
    · rw [if_pos ha] at h; simp at h
    · rw [if_neg ha] at h
      intro p hp
      rcases List.mem_cons.mp hp with he | he
      · subst he; exact ha
      · exact ih h p he

theorem mem_mapSet {l : List (K × A)} {k : K} {v : A} {p : K × A}
    (hnd : (l.map Prod.fst).Nodup) (h : p ∈ mapSet l k v) :
    p = (k, v) ∨ (p ∈ l ∧ p.1 ≠ k) := by
  induction l with
  | nil =>
    simp only [mapSet] at h
    left
    simpa using h
  | cons q rest ih =>
    obtain ⟨a, b⟩ := q
    simp only [List.map_cons, List.nodup_cons] at hnd
    by_cases ha : a = k
    · subst ha
      simp only [mapSet, if_pos rfl] at h
      rcases List.mem_cons.mp h with he | he
      · exact Or.inl he
      · right
        refine ⟨List.mem_cons_of_mem _ he, ?_⟩
        intro hpk
        exact hnd.1 (List.mem_map.mpr ⟨p, he, hpk⟩)
    · simp only [mapSet, if_neg ha] at h
      rcases List.mem_cons.mp h with he | he
      · subst he
        exact Or.inr ⟨List.mem_cons_self _ _, ha⟩
      · rcases ih hnd.2 he with h1 | h1
        · exact Or.inl h1
        · exact Or.inr ⟨List.mem_cons_of_mem _ h1.1, h1.2⟩

theorem mapSet_self_mem {l : List (K × A)} {k : K} {v : A} :
    (k, v) ∈ mapSet l k v := by
  induction l with
  | nil => simp [mapSet]
  | cons p rest ih =>
    obtain ⟨a, b⟩ := p
    by_cases ha : a = k
    · simp [mapSet, ha]
    · simp only [mapSet, if_neg ha]
      exact List.mem_cons_of_mem _ ih

theorem mapSet_map_fst_of_some {l : List (K × A)} {k : K} {v : A}
    (h : (mapGet l k).isSome) :
    (mapSet l k v).map Prod.fst = l.map Prod.fst := by
  induction l with
  | nil => simp [mapGet] at h
  | cons q rest ih =>
    obtain ⟨a, b⟩ := q
    by_cases ha : a = k
    · subst ha
      simp [mapSet]
    · rw [mapGet_cons, if_neg ha] at h
      simp only [mapSet, if_neg ha, List.map_cons, ih h]

theorem mapSet_map_fst_of_none {l : List (K × A)} {k : K} {v : A}
    (h : mapGet l k = none) :
    (mapSet l k v).map Prod.fst = l.map Prod.fst ++ [k] := by
  induction l with
  | nil => simp [mapSet]
  | cons q rest ih =>
    obtain ⟨a, b⟩ := q
    rw [mapGet_cons] at h
    by_cases ha : a = k
    · rw [if_pos ha] at h; simp at h
    · rw [if_neg ha] at h
      simp only [mapSet, if_neg ha, List.map_cons, ih h, List.cons_append]

theorem mapGet_mem {l : List (K × A)} {k : K} {v : A}
    (h : mapGet l k = some v) : (k, v) ∈ l := by
  induction l with
  | nil => simp [mapGet] at h
  | cons q rest ih =>
    obtain ⟨a, b⟩ := q
    rw [mapGet_cons] at h
    by_cases ha : a = k
    · rw [if_pos ha] at h
      subst ha
      obtain rfl : b = v := Option.some.inj h
      exact List.mem_cons_self _ _
    · rw [if_neg ha] at h
      exact List.mem_cons_of_mem _ (ih h)

theorem mapGet_of_mem_nodup {l : List (K × A)} {k : K} {v : A}
    (hnd : (l.map Prod.fst).Nodup) (h : (k, v) ∈ l) : mapGet l k = some v := by
  induction l with
  | nil => simp at h
  | cons q rest ih =>
    obtain ⟨a, b⟩ := q
    simp only [List.map_cons, List.nodup_cons] at hnd
    rcases List.mem_cons.mp h with he | he
    · have ha : a = k := (congrArg Prod.fst he).symm
      have hb : b = v := (congrArg Prod.snd he).symm
      subst ha; subst hb
      simp [mapGet_cons]
    · by_cases ha : a = k
      · subst ha
        exact absurd (List.mem_map.mpr ⟨(a, v), he, rfl⟩) hnd.1
      · rw [mapGet_cons, if_neg ha]
        exact ih hnd.2 he

@[simp] theorem mapGet_mapDel_self {l : List (K × A)} {k : K} :
    mapGet (mapDel l k) k = none := by
  induction l with
  | nil => rfl
  | cons q rest ih =>
    obtain ⟨a, b⟩ := q
    unfold mapDel at ih ⊢
    by_cases ha : a = k
    · simp only [List.filter_cons]
      rw [show (decide ¬(a, b).1 = k) = false by simpa using ha]
      rw [if_neg (by simp)]
      exact ih
    · simp only [List.filter_cons]
      rw [show (decide ¬(a, b).1 = k) = true by simpa using ha]
      rw [if_pos rfl, mapGet_cons, if_neg ha]
      exact ih

theorem mapGet_mapDel_ne {l : List (K × A)} {k k' : K} (h : k' ≠ k) :
    mapGet (mapDel l k) k' = mapGet l k' := by
  induction l with
  | nil => rfl
  | cons q rest ih =>
    obtain ⟨a, b⟩ := q
    unfold mapDel at ih ⊢
    by_cases ha : a = k
    · subst ha
      simp only [List.filter_cons]
      rw [show (decide ¬(a, b).1 = a) = false by simp]
      rw [if_neg (by simp)]
      have hne : a ≠ k' := fun hh => h hh.symm
      rw [show mapGet ((a, b) :: rest) k' = mapGet rest k' from if_neg hne]
      exact ih
    · simp only [List.filter_cons]
      rw [show (decide ¬(a, b).1 = k) = true by simpa using ha]
      rw [if_pos rfl]
      by_cases ha' : a = k'
      · simp [mapGet_cons, ha']
      · rw [mapGet_cons, if_neg ha', mapGet_cons, if_neg ha']
        exact ih

theorem mem_mapDel {l : List (K × A)} {k : K} {p : K × A}
    (h : p ∈ mapDel l k) : p ∈ l ∧ p.1 ≠ k := by
  unfold mapDel at h
  have := List.of_mem_filter h
  exact ⟨List.mem_of_mem_filter h, by simpa using this⟩

theorem mapDel_sublist {l : List (K × A)} {k : K} : (mapDel l k).Sublist l :=
  List.filter_sublist l

theorem mapDel_map_fst_nodup {l : List (K × A)} {k : K}
    (h : (l.map Prod.fst).Nodup) : ((mapDel l k).map Prod.fst).Nodup :=
  ((mapDel_sublist (k := k)).map Prod.fst).nodup h

end Maps

/-- State of one `*time.Timer` created by `time.AfterFunc` in `Prepare`:
the key captured by the closure `f`, the absolute deadline (ns) at which it
will fire, and whether it is currently armed (`Stop`/firing disarm it,
`Reset` rearms it). -/
structure TimerState (K : Type) where
  key : K
  deadline : Int
  active : Bool
  deriving DecidableEq, Repr

/-- `upload` struct: the stored timeout (`time.Duration`, a raw int64
nanosecond count kept verbatim) and the identity of the owned timer. -/
structure upload where
  timeout : Int
  timer : Nat
  deriving DecidableEq, Repr

/-- Outcome of the `io.Copy(dst, chunk)` call inside `Append`: the bytes it
wrote to `dst` and the error it returned (`none` for nil). -/
structure CopyOutcome where
  written : List Nat
  err : Option String
  deriving DecidableEq, Repr

/-- Scheduler state: the haxmap registry, the states of all timers ever
created (identified by allocation order), the allocation counter, and the
log of `cb` invocations `(timer id, key, error)` made by timer closures. -/
structure SchedState (K : Type) where
  sessions : List (K × upload)
  timers : List (Nat × TimerState K)
  nextTimer : Nat
  fired : List (Nat × K × Option String)
  deriving DecidableEq, Repr

/-- `NewScheduler`: empty registry, no timers, nothing fired. -/
def SchedState.init (K : Type) : SchedState K := ⟨[], [], 0, []⟩

section Sched

variable {K : Type} [DecidableEq K]

/-- `u.timer.Stop()`: disarm the timer `tid` (keeps key and deadline). -/
def timerStop (l : List (Nat × TimerState K)) (tid : Nat) :
    List (Nat × TimerState K) :=
  match mapGet l tid with
  | some ts => mapSet l tid { ts with active := false }
  | none => l

/-- `u.timer.Reset(d)`: rearm timer `tid` to fire at absolute time `dl`. -/
def timerReset (l : List (Nat × TimerState K)) (tid : Nat) (dl : Int) :
    List (Nat × TimerState K) :=
  match mapGet l tid with
  | some ts => mapSet l tid { ts with deadline := dl, active := true }
  | none => l

/-- `Prepare(k, timeout, cb)` called at absolute time `now`.

Mirrors `upsched.go`: reject if the key exists; otherwise compute
`d := time.Second * time.Duration(timeout)` (int64 multiplication, hence
`wrap64`), start `time.AfterFunc(d, f)` where `f` re-checks presence,
finishes and calls `cb`, and store `upload{timeout: timeout, timer: t}`. -/
def Prepare (s : SchedState K) (k : K) (timeout : Int) (now : Int) :
    SchedState K × Option String :=
  match mapGet s.sessions k with
  | some _ => (s, some "upload key already exists")
  | none =>
    ({ sessions := mapSet s.sessions k { timeout := timeout, timer := s.nextTimer },
       timers := mapSet s.timers s.nextTimer
         { key := k, deadline := now + wrap64 (nsPerSecond * timeout), active := true },
       nextTimer := s.nextTimer + 1,
       fired := s.fired }, none)

/-- `Append(k, chunk, dst)` called at absolute time `now`.

Mirrors `upsched.go`: reject if the key is absent; otherwise
`u.timer.Stop()`, `defer u.timer.Reset(u.timeout)` (note: the raw stored
`u.timeout`, with no seconds scaling), run `io.Copy(dst, chunk)` and wrap
its error if it failed.  The deferred `Reset` runs on both exit paths.
Returns the new state, the returned error, and the bytes written to `dst`
(empty when the copy never ran). -/
def Append (s : SchedState K) (k : K) (chunk : CopyOutcome) (now : Int) :
    SchedState K × Option String × List Nat :=
  match mapGet s.sessions k with
  | none => (s, some "upload key does not exist", [])
  | some u =>
    let timers := timerReset (timerStop s.timers u.timer) u.timer (now + u.timeout)
    match chunk.err with
    | some e =>
      ({ s with timers := timers },
       some ("unable to append chunk to destination file: " ++ e), chunk.written)
    | none => ({ s with timers := timers }, none, chunk.written)

/-- `Finish(k)`: reject if the key is absent; otherwise `u.timer.Stop()`
and `us.m.Del(k)`. -/
def Finish (s : SchedState K) (k : K) : SchedState K × Option String :=
  match mapGet s.sessions k with
  | none => (s, some "upload key does not exist")
  | some u =>
    ({ s with sessions := mapDel s.sessions k,
              timers := timerStop s.timers u.timer }, none)

/-- The closure `f` built in `Prepare`:
`if _, ok := us.m.Get(k); ok { err := us.Finish(k); cb(k, err) }`, where `k`
is the key captured at `Prepare` time and `tid` identifies the timer (and
hence the `cb`) for the `fired` log. -/
def fireClosure (s : SchedState K) (tid : Nat) (k : K) : SchedState K :=
  match mapGet s.sessions k with
  | none => s
  | some _ =>
    let r := Finish s k
    { r.1 with fired := r.1.fired ++ [(tid, k, r.2)] }

/-- Timer `tid` fires.  The single-shot timer disarms itself, then its
`AfterFunc` closure runs.  Disarmed timers never fire. -/
def fireTimer (s : SchedState K) (tid : Nat) : SchedState K :=
  match mapGet s.timers tid with
  | none => s
  | some ts =>
    if ts.active then
      fireClosure { s with timers := timerStop s.timers tid } tid ts.key
    else s

/-- Timers due at time `t`: armed with deadline already reached. -/
def dueTimers (s : SchedState K) (t : Int) : List Nat :=
  (s.timers.filter (fun p => p.2.active && decide (p.2.deadline ≤ t))).map Prod.fst

/-- Let the clock advance to time `t`: every timer due by `t` fires. -/
def advanceTo (s : SchedState K) (t : Int) : SchedState K :=
  (dueTimers s t).foldl fireTimer s

/-- An external operation on the scheduler. -/
inductive Event (K : Type) where
  | prepare (k : K) (timeout : Int)
  | append (k : K) (chunk : CopyOutcome)
  | finish (k : K)
  deriving DecidableEq, Repr

/-- Perform one operation at absolute time `t`, after letting every timer
due by `t` fire. -/
def step (s : SchedState K) (t : Int) (e : Event K) : SchedState K :=
  match e with
  | .prepare k timeout => (Prepare (advanceTo s t) k timeout t).1
  | .append k chunk => (Append (advanceTo s t) k chunk t).1
  | .finish k => (Finish (advanceTo s t) k).1

/-- Run a timed sequence of operations. -/
def run (s : SchedState K) : List (Int × Event K) → SchedState K
  | [] => s
  | (t, e) :: evs => run (step s t e) evs

/-- Run a timed sequence of operations, then let the clock advance
to `tEnd`. -/
def runTo (s : SchedState K) (evs : List (Int × Event K)) (tEnd : Int) :
    SchedState K :=
  advanceTo (run s evs) tEnd

/-- Timer ids whose `cb` has been invoked. -/
def firedTids (s : SchedState K) : List Nat := s.fired.map (fun e => e.1)

/-! ### Characterization lemmas for the operations -/

theorem timerStop_get_self {l : List (Nat × TimerState K)} {tid : Nat}
    {ts : TimerState K} (h : mapGet l tid = some ts) :
    mapGet (timerStop l tid) tid = some { ts with active := false } := by
  unfold timerStop
  rw [h]
  exact mapGet_mapSet_self

theorem timerStop_get_ne {l : List (Nat × TimerState K)} {tid tid' : Nat}
    (h : tid' ≠ tid) : mapGet (timerStop l tid) tid' = mapGet l tid' := by
  unfold timerStop
  cases hg : mapGet l tid with
  | none => rfl
  | some ts => exact mapGet_mapSet_ne h

theorem timerStop_map_fst {l : List (Nat × TimerState K)} {tid : Nat} :
    (timerStop l tid).map Prod.fst = l.map Prod.fst := by
  unfold timerStop
  cases hg : mapGet l tid with
  | none => rfl
  | some ts => exact mapSet_map_fst_of_some (by simp [hg])

theorem mem_timerStop {l : List (Nat × TimerState K)} {tid : Nat}
    {p : Nat × TimerState K} (hnd : (l.map Prod.fst).Nodup)
    (h : p ∈ timerStop l tid) :
    (p.1 = tid ∧ p.2.active = false) ∨ (p ∈ l ∧ p.1 ≠ tid) := by
  unfold timerStop at h
  cases hg : mapGet l tid with
  | none =>
    rw [hg] at h
    by_cases he : p.1 = tid
    · obtain ⟨a, b⟩ := p
      dsimp at he
      subst he
      exact absurd hg (by simp [mapGet_of_mem_nodup hnd h])
    · exact Or.inr ⟨h, he⟩
  | some ts =>
    rw [hg] at h
    rcases mem_mapSet hnd h with h1 | h1
    · subst h1
      exact Or.inl ⟨rfl, rfl⟩
    · exact Or.inr h1

theorem timerReset_get_self {l : List (Nat × TimerState K)} {tid : Nat} {dl : Int}
    {ts : TimerState K} (h : mapGet l tid = some ts) :
    mapGet (timerReset l tid dl) tid = some { ts with deadline := dl, active := true } := by
  unfold timerReset
  rw [h]
  exact mapGet_mapSet_self

theorem timerReset_get_ne {l : List (Nat × TimerState K)} {tid tid' : Nat} {dl : Int}
    (h : tid' ≠ tid) : mapGet (timerReset l tid dl) tid' = mapGet l tid' := by
  unfold timerReset
  cases hg : mapGet l tid with
  | none => rfl
  | some ts => exact mapGet_mapSet_ne h

theorem timerReset_map_fst {l : List (Nat × TimerState K)} {tid : Nat} {dl : Int} :
    (timerReset l tid dl).map Prod.fst = l.map Prod.fst := by
  unfold timerReset
  cases hg : mapGet l tid with
  | none => rfl
  | some ts => exact mapSet_map_fst_of_some (by simp [hg])

theorem mem_timerReset {l : List (Nat × TimerState K)} {tid : Nat} {dl : Int}
    {p : Nat × TimerState K} (hnd : (l.map Prod.fst).Nodup)
    (h : p ∈ timerReset l tid dl) :
    (p.1 = tid ∧ p.2.deadline = dl) ∨ (p ∈ l ∧ p.1 ≠ tid) := by
  unfold timerReset at h
  cases hg : mapGet l tid with
  | none =>
    rw [hg] at h
    by_cases he : p.1 = tid
    · obtain ⟨a, b⟩ := p
      dsimp at he
      subst he
      exact absurd hg (by simp [mapGet_of_mem_nodup hnd h])
    · exact Or.inr ⟨h, he⟩
  | some ts =>
    rw [hg] at h
    rcases mem_mapSet hnd h with h1 | h1
    · subst h1
      exact Or.inl ⟨rfl, rfl⟩
    · exact Or.inr h1

theorem Prepare_dup {s : SchedState K} {k : K} {u : upload} {d now : Int}
    (h : mapGet s.sessions k = some u) :
    Prepare s k d now = (s, some "upload key already exists") := by
  unfold Prepare
  rw [h]

theorem Prepare_new {s : SchedState K} {k : K} {d now : Int}
    (h : mapGet s.sessions k = none) :
    Prepare s k d now =
      ({ sessions := mapSet s.sessions k { timeout := d, timer := s.nextTimer },
         timers := mapSet s.timers s.nextTimer
           { key := k, deadline := now + wrap64 (nsPerSecond * d), active := true },
         nextTimer := s.nextTimer + 1,
         fired := s.fired }, none) := by
  unfold Prepare
  rw [h]

theorem Append_absent {s : SchedState K} {k : K} {c : CopyOutcome} {now : Int}
    (h : mapGet s.sessions k = none) :
    Append s k c now = (s, some "upload key does not exist", []) := by
  unfold Append
  rw [h]

theorem Append_state {s : SchedState K} {k : K} {u : upload} {c : CopyOutcome}
    {now : Int} (h : mapGet s.sessions k = some u) :
    (Append s k c now).1 =
      { s with
        timers := timerReset (timerStop s.timers u.timer) u.timer (now + u.timeout) } := by
  unfold Append
  rw [h]
  cases c.err <;> rfl

theorem Append_ok {s : SchedState K} {k : K} {u : upload} {w : List Nat}
    {now : Int} (h : mapGet s.sessions k = some u) :
    Append s k ⟨w, none⟩ now =
      ({ s with
         timers := timerReset (timerStop s.timers u.timer) u.timer (now + u.timeout) },
       none, w) := by
  unfold Append
  rw [h]

theorem Append_fail {s : SchedState K} {k : K} {u : upload} {w : List Nat}
    {e : String} {now : Int} (h : mapGet s.sessions k = some u) :
    Append s k ⟨w, some e⟩ now =
      ({ s with
         timers := timerReset (timerStop s.timers u.timer) u.timer (now + u.timeout) },
       some ("unable to append chunk to destination file: " ++ e), w) := by
  unfold Append
  rw [h]

theorem Finish_absent {s : SchedState K} {k : K}
    (h : mapGet s.sessions k = none) :
    Finish s k = (s, some "upload key does not exist") := by
  unfold Finish
  rw [h]

theorem Finish_present {s : SchedState K} {k : K} {u : upload}
    (h : mapGet s.sessions k = some u) :
    Finish s k = ({ s with sessions := mapDel s.sessions k,
                           timers := timerStop s.timers u.timer }, none) := by
  unfold Finish
  rw [h]

theorem fireClosure_absent {s : SchedState K} {tid : Nat} {k : K}
    (h : mapGet s.sessions k = none) : fireClosure s tid k = s := by
  unfold fireClosure
  rw [h]

theorem fireClosure_present {s : SchedState K} {tid : Nat} {k : K} {u : upload}
    (h : mapGet s.sessions k = some u) :
    fireClosure s tid k =
      { s with sessions := mapDel s.sessions k,
               timers := timerStop s.timers u.timer,
               fired := s.fired ++ [(tid, k, none)] } := by
  unfold fireClosure
  rw [h]
  dsimp only
  rw [Finish_present h]

theorem fireTimer_no_timer {s : SchedState K} {tid : Nat}
    (h : mapGet s.timers tid = none) : fireTimer s tid = s := by
  unfold fireTimer
  rw [h]

theorem fireTimer_inactive {s : SchedState K} {tid : Nat} {ts : TimerState K}
    (h : mapGet s.timers tid = some ts) (ha : ts.active = false) :
    fireTimer s tid = s := by
  unfold fireTimer
  rw [h]
  dsimp only
  rw [ha]
  rfl

theorem fireTimer_active {s : SchedState K} {tid : Nat} {ts : TimerState K}
    (h : mapGet s.timers tid = some ts) (ha : ts.active = true) :
    fireTimer s tid =
      fireClosure { s with timers := timerStop s.timers tid } tid ts.key := by
  unfold fireTimer
  rw [h]
  dsimp only
  rw [ha]
  rfl

theorem fireTimer_gone {s : SchedState K} {tid : Nat} {ts : TimerState K}
    (h : mapGet s.timers tid = some ts) (ha : ts.active = true)
    (hk : mapGet s.sessions ts.key = none) :
    fireTimer s tid = { s with timers := timerStop s.timers tid } := by
  rw [fireTimer_active h ha]
  exact fireClosure_absent hk

theorem fireTimer_present {s : SchedState K} {tid : Nat} {ts : TimerState K}
    {u : upload} (h : mapGet s.timers tid = some ts) (ha : ts.active = true)
    (hk : mapGet s.sessions ts.key = some u) :
    fireTimer s tid =
      { sessions := mapDel s.sessions ts.key,
        timers := timerStop (timerStop s.timers tid) u.timer,
        nextTimer := s.nextTimer,
        fired := s.fired ++ [(tid, ts.key, none)] } := by
  rw [fireTimer_active h ha]
  have hk1 : mapGet ({ s with timers := timerStop s.timers tid } : SchedState K).sessions ts.key
      = some u := hk
  exact fireClosure_present hk1

/-! ### Dead timers stay dead

A timer that is disarmed and no longer referenced by any session (as happens
to a session's timer after `Finish`, or to a timer after it fires) can never
be rearmed, can never fire, and hence its `cb` is never invoked later. -/

/-- Timer `tid` is dead: already allocated, disarmed, and not owned by any
live session. -/
def deadTimer (s : SchedState K) (tid : Nat) : Prop :=
  tid < s.nextTimer ∧
  (∀ p ∈ s.sessions, (p.2 : upload).timer ≠ tid) ∧
  (∀ ts : TimerState K, (tid, ts) ∈ s.timers → ts.active = false)

theorem deadTimer_timerStop {s : SchedState K} {tid tid0 : Nat}
    {l : List (Nat × TimerState K)}
    (hnd : (s.timers.map Prod.fst).Nodup)
    (hd : deadTimer s tid) (hl : l = timerStop s.timers tid0) :
    ∀ ts : TimerState K, (tid, ts) ∈ l → ts.active = false := by
  intro ts hmem
  subst hl
  rcases mem_timerStop hnd hmem with h1 | h1
  · exact h1.2
  · exact hd.2.2 ts h1.1

theorem deadTimer_Prepare {s : SchedState K} {tid : Nat} {k : K} {d now : Int}
    (hd : deadTimer s tid) (hnd : (s.timers.map Prod.fst).Nodup)
    (hsn : (s.sessions.map Prod.fst).Nodup) :
    deadTimer (Prepare s k d now).1 tid := by
  obtain ⟨hlt, href, hact⟩ := hd
  cases hg : mapGet s.sessions k with
  | some u => rw [Prepare_dup hg]; exact ⟨hlt, href, hact⟩
  | none =>
    rw [Prepare_new hg]
    refine ⟨Nat.lt_succ_of_lt hlt, ?_, ?_⟩
    · intro p hp
      rcases mem_mapSet hsn hp with h1 | h1
      · subst h1
        exact fun he => absurd (he ▸ hlt) (lt_irrefl _)
      · exact href p h1.1
    · intro ts hmem
      rcases mem_mapSet hnd hmem with h1 | h1
      · exact absurd (congrArg Prod.fst h1) (by simpa using Nat.ne_of_lt hlt)
      · exact hact ts h1.1

theorem deadTimer_Append {s : SchedState K} {tid : Nat} {k : K}
    {c : CopyOutcome} {now : Int}
    (hd : deadTimer s tid) (hnd : (s.timers.map Prod.fst).Nodup) :
    deadTimer (Append s k c now).1 tid := by
  obtain ⟨hlt, href, hact⟩ := hd
  cases hg : mapGet s.sessions k with
  | none => rw [Append_absent hg]; exact ⟨hlt, href, hact⟩
  | some u =>
    rw [Append_state hg]
    refine ⟨hlt, href, ?_⟩
    have hut : u.timer ≠ tid := href (k, u) (mapGet_mem hg)
    intro ts hmem
    rcases mem_timerReset
        (by rw [timerStop_map_fst]; exact hnd) hmem with h1 | h1
    · exact absurd h1.1 (fun he => hut he.symm)
    · rcases mem_timerStop hnd h1.1 with h2 | h2
      · exact h2.2
      · exact hact ts h2.1

theorem deadTimer_Finish {s : SchedState K} {tid : Nat} {k : K}
    (hd : deadTimer s tid) (hnd : (s.timers.map Prod.fst).Nodup) :
    deadTimer (Finish s k).1 tid := by
  obtain ⟨hlt, href, hact⟩ := hd
  cases hg : mapGet s.sessions k with
  | none => rw [Finish_absent hg]; exact ⟨hlt, href, hact⟩
  | some u =>
    rw [Finish_present hg]
    refine ⟨hlt, ?_, ?_⟩
    · intro p hp
      exact href p (mem_mapDel hp).1
    · intro ts hmem
      rcases mem_timerStop hnd hmem with h1 | h1
      · exact h1.2
      · exact hact ts h1.1

theorem deadTimer_fireTimer {s : SchedState K} {tid tid0 : Nat}
    (hd : deadTimer s tid) (hnd : (s.timers.map Prod.fst).Nodup) :
    deadTimer (fireTimer s tid0) tid ∧
    firedTids (fireTimer s tid0) = firedTids s ∨
    deadTimer (fireTimer s tid0) tid ∧ tid0 ≠ tid ∧
    firedTids (fireTimer s tid0) = firedTids s ++ [tid0] := by
  obtain ⟨hlt, href, hact⟩ := hd
  cases hg : mapGet s.timers tid0 with
  | none =>
    rw [fireTimer_no_timer hg]
    exact Or.inl ⟨⟨hlt, href, hact⟩, rfl⟩
  | some ts =>
    cases ha : ts.active with
    | false =>
      rw [fireTimer_inactive hg ha]
      exact Or.inl ⟨⟨hlt, href, hact⟩, rfl⟩
    | true =>
      have htid0 : tid0 ≠ tid := by
        intro he
        subst he
        exact absurd (hact ts (mapGet_mem hg)) (by simp [ha])
      cases hk : mapGet s.sessions ts.key with
      | none =>
        rw [fireTimer_gone hg ha hk]
        refine Or.inl ⟨⟨hlt, href, ?_⟩, rfl⟩
        exact deadTimer_timerStop hnd ⟨hlt, href, hact⟩ rfl
      | some u =>
        rw [fireTimer_present hg ha hk]
        refine Or.inr ⟨⟨hlt, ?_, ?_⟩, htid0, ?_⟩
        · intro p hp
          exact href p (mem_mapDel hp).1
        · intro ts' hmem
          have hut : u.timer ≠ tid := href (ts.key, u) (mapGet_mem hk)
          rcases mem_timerStop
              (l := timerStop s.timers tid0)
              (by rw [timerStop_map_fst]; exact hnd) hmem with h1 | h1
          · exact h1.2
          · rcases mem_timerStop hnd h1.1 with h2 | h2
            · exact h2.2
            · exact hact ts' h2.1
        · simp [firedTids]

theorem deadTimer_fire_not_fired {s : SchedState K} {tid tid0 : Nat}
    (hd : deadTimer s tid) (hnd : (s.timers.map Prod.fst).Nodup)
    (hf : tid ∉ firedTids s) :
    deadTimer (fireTimer s tid0) tid ∧ tid ∉ firedTids (fireTimer s tid0) := by
  rcases @deadTimer_fireTimer K _ s tid tid0 hd hnd with ⟨h1, h2⟩ | ⟨h1, h2, h3⟩
  · exact ⟨h1, h2 ▸ hf⟩
  · refine ⟨h1, ?_⟩
    rw [h3]
    simp only [List.mem_append, List.mem_singleton]
    rintro (hc | hc)
    · exact hf hc
    · exact h2 hc.symm

/-! ### The reachable-state invariant -/

theorem mapGet_eq_none_of_forall {A : Type} {l : List (K × A)} {k : K}
    (h : ∀ p ∈ l, p.1 ≠ k) : mapGet l k = none := by
  induction l with
  | nil => rfl
  | cons q rest ih =>
    obtain ⟨a, b⟩ := q
    rw [mapGet_cons, if_neg (h (a, b) (List.mem_cons_self _ _))]
    exact ih (fun p hp => h p (List.mem_cons_of_mem _ hp))

theorem not_mem_fst_of_mapGet_none {A : Type} {l : List (K × A)} {k : K}
    (h : mapGet l k = none) : k ∉ l.map Prod.fst := by
  intro hc
  obtain ⟨p, hp, he⟩ := List.mem_map.mp hc
  exact not_mem_of_mapGet_eq_none h p hp he

theorem nodup_append_singleton {α : Type} {l : List α} {a : α}
    (h : l.Nodup) (ha : a ∉ l) : (l ++ [a]).Nodup := by
  rw [List.nodup_append]
  refine ⟨h, List.nodup_singleton a, ?_⟩
  intro x hx hxa
  rw [List.mem_singleton] at hxa
  subst hxa
  exact ha hx

/-- Invariant of every scheduler state reachable from `SchedState.init`:
registry keys are unique, timer ids are unique and below the allocation
counter, every live session owns a timer whose closure captured exactly that
session's key, and every timer that already invoked its `cb` is dead (so it
can never fire again). -/
structure WF (s : SchedState K) : Prop where
  sessNodup : (s.sessions.map Prod.fst).Nodup
  timersNodup : (s.timers.map Prod.fst).Nodup
  timersLt : ∀ p ∈ s.timers, p.1 < s.nextTimer
  sessLt : ∀ p ∈ s.sessions, (p.2 : upload).timer < s.nextTimer
  owner : ∀ p ∈ s.sessions,
    ∃ ts : TimerState K, mapGet s.timers (p.2 : upload).timer = some ts ∧ ts.key = p.1
  firedDead : ∀ tid ∈ firedTids s, deadTimer s tid
  firedNodup : (firedTids s).Nodup

theorem WF_init : WF (SchedState.init K) := by
  constructor <;> simp [SchedState.init, firedTids]

theorem WF_Prepare {s : SchedState K} {k : K} {d now : Int} (h : WF s) :
    WF (Prepare s k d now).1 := by
  cases hg : mapGet s.sessions k with
  | some u => rw [Prepare_dup hg]; exact h
  | none =>
    have hgt : mapGet s.timers s.nextTimer = none :=
      mapGet_eq_none_of_forall (fun p hp => Nat.ne_of_lt (h.timersLt p hp))
    rw [Prepare_new hg]
    constructor
    · rw [show (mapSet s.sessions k { timeout := d, timer := s.nextTimer }).map Prod.fst
          = s.sessions.map Prod.fst ++ [k] from mapSet_map_fst_of_none hg]
      exact nodup_append_singleton h.sessNodup (not_mem_fst_of_mapGet_none hg)
    · rw [show (mapSet s.timers s.nextTimer
            { key := k, deadline := now + wrap64 (nsPerSecond * d), active := true }).map Prod.fst
          = s.timers.map Prod.fst ++ [s.nextTimer] from mapSet_map_fst_of_none hgt]
      exact nodup_append_singleton h.timersNodup (not_mem_fst_of_mapGet_none hgt)
    · intro p hp
      rcases mem_mapSet h.timersNodup hp with h1 | h1
      · rw [show p.1 = s.nextTimer from congrArg Prod.fst h1]
        exact Nat.lt_succ_self _
      · exact Nat.lt_succ_of_lt (h.timersLt p h1.1)
    · intro p hp
      rcases mem_mapSet h.sessNodup hp with h1 | h1
      · rw [show (p.2 : upload).timer = s.nextTimer from
          congrArg (fun q => (Prod.snd q : upload).timer) h1]
        exact Nat.lt_succ_self _
      · exact Nat.lt_succ_of_lt (h.sessLt p h1.1)
    · intro p hp
      rcases mem_mapSet h.sessNodup hp with h1 | h1
      · subst h1
        exact ⟨_, mapGet_mapSet_self, rfl⟩
      · obtain ⟨ts, hts, hkey⟩ := h.owner p h1.1
        refine ⟨ts, ?_, hkey⟩
        rw [mapGet_mapSet_ne (Nat.ne_of_lt (h.sessLt p h1.1))]
        exact hts
    · intro tid htid
      have hd := @deadTimer_Prepare K _ s tid k d now
        (h.firedDead tid htid) h.timersNodup h.sessNodup
      rw [Prepare_new hg] at hd
      exact hd
    · exact h.firedNodup

theorem WF_Append {s : SchedState K} {k : K} {c : CopyOutcome} {now : Int}
    (h : WF s) : WF (Append s k c now).1 := by
  cases hg : mapGet s.sessions k with
  | none => rw [Append_absent hg]; exact h
  | some u =>
    have hmem : (k, u) ∈ s.sessions := mapGet_mem hg
    obtain ⟨ts, hts, hkey⟩ := h.owner (k, u) hmem
    have hndStop : ((timerStop s.timers u.timer).map Prod.fst).Nodup := by
      rw [timerStop_map_fst]; exact h.timersNodup
    rw [Append_state hg]
    constructor
    · exact h.sessNodup
    · rw [timerReset_map_fst, timerStop_map_fst]
      exact h.timersNodup
    · intro p hp
      rcases mem_timerReset hndStop hp with h1 | h1
      · rw [h1.1]
        exact h.sessLt (k, u) hmem
      · rcases mem_timerStop h.timersNodup h1.1 with h2 | h2
        · rw [h2.1]
          exact h.sessLt (k, u) hmem
        · exact h.timersLt p h2.1
    · exact h.sessLt
    · intro p hp
      by_cases he : (p.2 : upload).timer = u.timer
      · -- p owns the same timer as the session for k; by ownership p is that session
        obtain ⟨ts2, hts2, hkey2⟩ := h.owner p hp
        have : ts2 = ts := by
          rw [he] at hts2
          exact Option.some.inj (hts2.symm.trans hts)
        have hpk : p.1 = k := by rw [← hkey2, this, hkey]
        refine ⟨{ ts with deadline := now + u.timeout, active := true }, ?_, ?_⟩
        · rw [he, timerReset_get_self (timerStop_get_self hts)]
        · simpa [hpk] using hkey
      · obtain ⟨ts2, hts2, hkey2⟩ := h.owner p hp
        refine ⟨ts2, ?_, hkey2⟩
        rw [timerReset_get_ne he, timerStop_get_ne he]
        exact hts2
    · intro tid htid
      have hd := @deadTimer_Append K _ s tid k c now
        (h.firedDead tid htid) h.timersNodup
      rw [Append_state hg] at hd
      exact hd
    · exact h.firedNodup

theorem WF_Finish {s : SchedState K} {k : K} (h : WF s) : WF (Finish s k).1 := by
  cases hg : mapGet s.sessions k with
  | none => rw [Finish_absent hg]; exact h
  | some u =>
    have hmem : (k, u) ∈ s.sessions := mapGet_mem hg
    rw [Finish_present hg]
    constructor
    · exact mapDel_map_fst_nodup h.sessNodup
    · rw [timerStop_map_fst]
      exact h.timersNodup
    · intro p hp
      rcases mem_timerStop h.timersNodup hp with h1 | h1
      · rw [h1.1]
        exact h.sessLt (k, u) hmem
      · exact h.timersLt p h1.1
    · intro p hp
      exact h.sessLt p (mem_mapDel hp).1
    · intro p hp
      obtain ⟨hpmem, hpk⟩ := mem_mapDel hp
      obtain ⟨ts2, hts2, hkey2⟩ := h.owner p hpmem
      by_cases he : (p.2 : upload).timer = u.timer
      · -- would force p to be the session for k, which was deleted
        obtain ⟨ts, hts, hkey⟩ := h.owner (k, u) hmem
        have : ts2 = ts := by
          rw [he] at hts2
          exact Option.some.inj (hts2.symm.trans hts)
        exact absurd (by rw [← hkey2, this, hkey]) hpk
      · refine ⟨ts2, ?_, hkey2⟩
        rw [timerStop_get_ne he]
        exact hts2
    · intro tid htid
      have hd := deadTimer_Finish (k := k) (h.firedDead tid htid) h.timersNodup
      rw [Finish_present hg] at hd
      exact hd
    · exact h.firedNodup

theorem WF_fireTimer {s : SchedState K} {tid0 : Nat} (h : WF s) :
    WF (fireTimer s tid0) := by
  cases hg : mapGet s.timers tid0 with
  | none => rw [fireTimer_no_timer hg]; exact h
  | some ts =>
    cases ha : ts.active with
    | false => rw [fireTimer_inactive hg ha]; exact h
    | true =>
      have htsmem : (tid0, ts) ∈ s.timers := mapGet_mem hg
      cases hk : mapGet s.sessions ts.key with
      | none =>
        rw [fireTimer_gone hg ha hk]
        constructor
        · exact h.sessNodup
        · rw [timerStop_map_fst]; exact h.timersNodup
        · intro p hp
          rcases mem_timerStop h.timersNodup hp with h1 | h1
          · rw [h1.1]; exact h.timersLt (tid0, ts) htsmem
          · exact h.timersLt p h1.1
        · exact h.sessLt
        · intro p hp
          obtain ⟨ts2, hts2, hkey2⟩ := h.owner p hp
          by_cases he : (p.2 : upload).timer = tid0
          · have hts2e : ts2 = ts := by
              rw [he] at hts2
              exact Option.some.inj (hts2.symm.trans hg)
            have hpk : p.1 = ts.key := by rw [← hkey2, hts2e]
            exact absurd hpk (not_mem_of_mapGet_eq_none hk p hp)
          · refine ⟨ts2, ?_, hkey2⟩
            rw [timerStop_get_ne he]
            exact hts2
        · intro tid htid
          obtain ⟨hlt, href, hact⟩ := h.firedDead tid htid
          exact ⟨hlt, href, deadTimer_timerStop h.timersNodup ⟨hlt, href, hact⟩ rfl⟩
        · exact h.firedNodup
      | some u =>
        have humem : (ts.key, u) ∈ s.sessions := mapGet_mem hk
        obtain ⟨tsu, htsu, hkeyu⟩ := h.owner (ts.key, u) humem
        have hndStop : ((timerStop s.timers tid0).map Prod.fst).Nodup := by
          rw [timerStop_map_fst]; exact h.timersNodup
        have hnotfired : tid0 ∉ firedTids s := by
          intro hc
          obtain ⟨hl1, hl2, hact2⟩ := h.firedDead tid0 hc
          exact absurd (hact2 ts htsmem) (by simp [ha])
        rw [fireTimer_present hg ha hk]
        constructor
        · exact mapDel_map_fst_nodup h.sessNodup
        · rw [timerStop_map_fst, timerStop_map_fst]; exact h.timersNodup
        · intro p hp
          rcases mem_timerStop hndStop hp with h1 | h1
          · rw [h1.1]; exact h.sessLt (ts.key, u) humem
          · rcases mem_timerStop h.timersNodup h1.1 with h2 | h2
            · rw [h2.1]; exact h.timersLt (tid0, ts) htsmem
            · exact h.timersLt p h2.1
        · intro p hp
          exact h.sessLt p (mem_mapDel hp).1
        · intro p hp
          obtain ⟨hpmem, hpk⟩ := mem_mapDel hp
          obtain ⟨ts2, hts2, hkey2⟩ := h.owner p hpmem
          have hne0 : (p.2 : upload).timer ≠ tid0 := by
            intro he
            have hts2e : ts2 = ts := by
              rw [he] at hts2
              exact Option.some.inj (hts2.symm.trans hg)
            exact hpk (by rw [← hkey2, hts2e])
          have hneu : (p.2 : upload).timer ≠ u.timer := by
            intro he
            have hts2e : ts2 = tsu := by
              rw [he] at hts2
              exact Option.some.inj (hts2.symm.trans htsu)
            exact hpk (by rw [← hkey2, hts2e, hkeyu])
          refine ⟨ts2, ?_, hkey2⟩
          rw [timerStop_get_ne hneu, timerStop_get_ne hne0]
          exact hts2
        · intro tid htid
          simp only [firedTids, List.map_append, List.map_cons, List.map_nil] at htid
          rcases List.mem_append.mp htid with hold | hnew
          · obtain ⟨hlt, href, hact⟩ := h.firedDead tid hold
            refine ⟨hlt, ?_, ?_⟩
            · intro p hp
              exact href p (mem_mapDel hp).1
            · intro ts' hmem
              rcases mem_timerStop hndStop hmem with h1 | h1
              · exact h1.2
              · rcases mem_timerStop h.timersNodup h1.1 with h2 | h2
                · exact h2.2
                · exact hact ts' h2.1
          · rw [List.mem_singleton] at hnew
            subst hnew
            refine ⟨h.timersLt (tid, ts) htsmem, ?_, ?_⟩
            · intro p hp
              obtain ⟨hpmem, hpk⟩ := mem_mapDel hp
              intro he
              obtain ⟨ts2, hts2, hkey2⟩ := h.owner p hpmem
              have hts2e : ts2 = ts := by
                rw [he] at hts2
                exact Option.some.inj (hts2.symm.trans hg)
              exact hpk (by rw [← hkey2, hts2e])
            · intro ts' hmem
              rcases mem_timerStop hndStop hmem with h1 | h1
              · exact h1.2
              · rcases mem_timerStop h.timersNodup h1.1 with h2 | h2
                · exact h2.2
                · exact absurd rfl h2.2
        · simp only [firedTids, List.map_append, List.map_cons, List.map_nil]
          exact nodup_append_singleton h.firedNodup hnotfired

theorem WF_foldl_fire {s : SchedState K} {l : List Nat} (h : WF s) :
    WF (l.foldl fireTimer s) := by
  induction l generalizing s with
  | nil => exact h
  | cons t rest ih => exact ih (WF_fireTimer h)

theorem WF_advanceTo {s : SchedState K} {t : Int} (h : WF s) :
    WF (advanceTo s t) := WF_foldl_fire h

theorem WF_step {s : SchedState K} {t : Int} {e : Event K} (h : WF s) :
    WF (step s t e) := by
  cases e with
  | prepare k d => exact WF_Prepare (WF_advanceTo h)
  | append k c => exact WF_Append (WF_advanceTo h)
  | finish k => exact WF_Finish (WF_advanceTo h)

theorem WF_run {s : SchedState K} {evs : List (Int × Event K)} (h : WF s) :
    WF (run s evs) := by
  induction evs generalizing s with
  | nil => exact h
  | cons te rest ih => exact ih (WF_step h)

theorem WF_runTo {s : SchedState K} {evs : List (Int × Event K)} {tEnd : Int}
    (h : WF s) : WF (runTo s evs tEnd) := WF_advanceTo (WF_run h)

/-! ### Fired-log facts -/

theorem Prepare_fired {s : SchedState K} {k : K} {d now : Int} :
    (Prepare s k d now).1.fired = s.fired := by
  cases hg : mapGet s.sessions k with
  | some u => rw [Prepare_dup hg]
  | none => rw [Prepare_new hg]

theorem Append_fired {s : SchedState K} {k : K} {c : CopyOutcome} {now : Int} :
    (Append s k c now).1.fired = s.fired := by
  cases hg : mapGet s.sessions k with
  | none => rw [Append_absent hg]
  | some u => rw [Append_state hg]

theorem Finish_fired {s : SchedState K} {k : K} :
    (Finish s k).1.fired = s.fired := by
  cases hg : mapGet s.sessions k with
  | none => rw [Finish_absent hg]
  | some u => rw [Finish_present hg]

theorem dead_foldl_fire {s : SchedState K} {l : List Nat} {tid : Nat}
    (h : WF s) (hd : deadTimer s tid) (hf : tid ∉ firedTids s) :
    deadTimer (l.foldl fireTimer s) tid ∧ tid ∉ firedTids (l.foldl fireTimer s) := by
  induction l generalizing s with
  | nil => exact ⟨hd, hf⟩
  | cons t rest ih =>
    have h1 := @deadTimer_fire_not_fired K _ s tid t hd h.timersNodup hf
    exact ih (WF_fireTimer h) h1.1 h1.2

theorem dead_advanceTo {s : SchedState K} {t : Int} {tid : Nat}
    (h : WF s) (hd : deadTimer s tid) (hf : tid ∉ firedTids s) :
    deadTimer (advanceTo s t) tid ∧ tid ∉ firedTids (advanceTo s t) :=
  dead_foldl_fire h hd hf

theorem dead_step {s : SchedState K} {t : Int} {e : Event K} {tid : Nat}
    (h : WF s) (hd : deadTimer s tid) (hf : tid ∉ firedTids s) :
    deadTimer (step s t e) tid ∧ tid ∉ firedTids (step s t e) := by
  obtain ⟨hd1, hf1⟩ := dead_advanceTo (t := t) h hd hf
  have h1 : WF (advanceTo s t) := WF_advanceTo h
  cases e with
  | prepare k d =>
    refine ⟨deadTimer_Prepare hd1 h1.timersNodup h1.sessNodup, ?_⟩
    simpa [step, firedTids, Prepare_fired] using hf1
  | append k c =>
    refine ⟨deadTimer_Append hd1 h1.timersNodup, ?_⟩
    simpa [step, firedTids, Append_fired] using hf1
  | finish k =>
    refine ⟨deadTimer_Finish hd1 h1.timersNodup, ?_⟩
    simpa [step, firedTids, Finish_fired] using hf1

theorem dead_run {s : SchedState K} {evs : List (Int × Event K)} {tid : Nat}
    (h : WF s) (hd : deadTimer s tid) (hf : tid ∉ firedTids s) :
    deadTimer (run s evs) tid ∧ tid ∉ firedTids (run s evs) := by
  induction evs generalizing s with
  | nil => exact ⟨hd, hf⟩
  | cons te rest ih =>
    obtain ⟨hd1, hf1⟩ := dead_step (t := te.1) (e := te.2) h hd hf
    exact ih (WF_step h) hd1 hf1

/-- A dead timer's callback is never invoked in any later execution. -/
theorem dead_runTo {s : SchedState K} {evs : List (Int × Event K)} {tEnd : Int}
    {tid : Nat} (h : WF s) (hd : deadTimer s tid) (hf : tid ∉ firedTids s) :
    tid ∉ firedTids (runTo s evs tEnd) := by
  obtain ⟨hd1, hf1⟩ := @dead_run K _ s evs tid h hd hf
  exact (dead_advanceTo (WF_run h) hd1 hf1).2

/-- Every recorded callback invocation carries a nil error. -/
def firedNone (s : SchedState K) : Prop :=
  ∀ p ∈ s.fired, (p.2.2 : Option String) = none

theorem firedNone_fireTimer {s : SchedState K} {tid0 : Nat} (h : firedNone s) :
    firedNone (fireTimer s tid0) := by
  cases hg : mapGet s.timers tid0 with
  | none => rw [fireTimer_no_timer hg]; exact h
  | some ts =>
    cases ha : ts.active with
    | false => rw [fireTimer_inactive hg ha]; exact h
    | true =>
      cases hk : mapGet s.sessions ts.key with
      | none => rw [fireTimer_gone hg ha hk]; exact h
      | some u =>
        rw [fireTimer_present hg ha hk]
        intro p hp
        rcases List.mem_append.mp hp with h1 | h1
        · exact h p h1
        · rw [List.mem_singleton] at h1
          subst h1
          rfl

theorem firedNone_foldl_fire {s : SchedState K} {l : List Nat}
    (h : firedNone s) : firedNone (l.foldl fireTimer s) := by
  induction l generalizing s with
  | nil => exact h
  | cons t rest ih => exact ih (firedNone_fireTimer h)

theorem firedNone_step {s : SchedState K} {t : Int} {e : Event K}
    (h : firedNone s) : firedNone (step s t e) := by
  have h1 : firedNone (advanceTo s t) := firedNone_foldl_fire h
  cases e with
  | prepare k d =>
    intro p hp
    rw [show (step s t (Event.prepare k d)).fired = (advanceTo s t).fired from
      Prepare_fired] at hp
    exact h1 p hp
  | append k c =>
    intro p hp
    rw [show (step s t (Event.append k c)).fired = (advanceTo s t).fired from
      Append_fired] at hp
    exact h1 p hp
  | finish k =>
    intro p hp
    rw [show (step s t (Event.finish k)).fired = (advanceTo s t).fired from
      Finish_fired] at hp
    exact h1 p hp

theorem firedNone_runTo {s : SchedState K} {evs : List (Int × Event K)}
    {tEnd : Int} (h : firedNone s) : firedNone (runTo s evs tEnd) := by
  have hr : firedNone (run s evs) := by
    induction evs generalizing s with
    | nil => exact h
    | cons te rest ih => exact ih (firedNone_step h)
  exact firedNone_foldl_fire hr

/-- The absolute deadline for which timer `tid` is currently set. -/
def armedDeadline (s : SchedState K) (tid : Nat) : Option Int :=
  (mapGet s.timers tid).map (fun ts => ts.deadline)

/-- After `Prepare k d` at `t0` and `Finish k` at `t1` (before the deadline),
the scheduler is empty again and timer `0` is dead. -/
theorem prepare_finish_state {k : K} {d t0 t1 : Int}
    (hb : t1 < t0 + wrap64 (nsPerSecond * d)) :
    step (step (SchedState.init K) t0 (Event.prepare k d)) t1 (Event.finish k) =
      ⟨[], [(0, ⟨k, t0 + wrap64 (nsPerSecond * d), false⟩)], 1, []⟩ := by
  have hsa : step (SchedState.init K) t0 (Event.prepare k d) =
      ⟨[(k, ⟨d, 0⟩)], [(0, ⟨k, t0 + wrap64 (nsPerSecond * d), true⟩)], 1, []⟩ := rfl
  rw [hsa]
  have hdec : decide ((t0 + wrap64 (nsPerSecond * d)) ≤ t1) = false :=
    decide_eq_false (not_le.mpr hb)
  have hadv : advanceTo
      (⟨[(k, ⟨d, 0⟩)], [(0, ⟨k, t0 + wrap64 (nsPerSecond * d), true⟩)], 1, []⟩ : SchedState K)
      t1 =
      ⟨[(k, ⟨d, 0⟩)], [(0, ⟨k, t0 + wrap64 (nsPerSecond * d), true⟩)], 1, []⟩ := by
    unfold advanceTo dueTimers
    simp [hdec]
  show (Finish (advanceTo _ t1) k).1 = _
  rw [hadv]
  have hget : mapGet
      (⟨[(k, (⟨d, 0⟩ : upload))],
        [(0, (⟨k, t0 + wrap64 (nsPerSecond * d), true⟩ : TimerState K))], 1, []⟩ :
        SchedState K).sessions k = some ⟨d, 0⟩ := by
    show mapGet [(k, (⟨d, 0⟩ : upload))] k = some ⟨d, 0⟩
    rw [mapGet_cons, if_pos rfl]
  rw [Finish_present hget]
  show (⟨mapDel [(k, (⟨d, 0⟩ : upload))] k,
        timerStop [(0, (⟨k, t0 + wrap64 (nsPerSecond * d), true⟩ : TimerState K))] 0,
        1, []⟩ : SchedState K) = _
  have hdel : mapDel [(k, (⟨d, 0⟩ : upload))] k = [] := by
    simp [mapDel]
  have hstop : timerStop [(0, (⟨k, t0 + wrap64 (nsPerSecond * d), true⟩ : TimerState K))] 0 =
      [(0, ⟨k, t0 + wrap64 (nsPerSecond * d), false⟩)] := rfl
  rw [hdel, hstop]

/-- Claim C1 (code bug): `Prepare` arms the timer for
`time.Second * time.Duration(timeout)` — the timeout value read as a count of
seconds — but `Append` rearms it with `Reset(u.timeout)`, the raw stored
duration value, a factor `10^9` smaller.  With timeout value `2`, `Prepare`
(at time 0) arms the deadline `2000000000` ns, while an `Append` at time 0
leaves the deadline at `2` ns.  The deadline in effect after `Append` does
not equal the deadline `Prepare` armed, contradicting the claim (and the
code's own doc comment, which says `Append` "resets the upload's timer to
the initial timeout duration"). -/
theorem claim_C1_append_rearm_code_bug :
    armedDeadline (Prepare (SchedState.init Nat) 7 2 0).1 0 = some 2000000000 ∧
    armedDeadline (Append (Prepare (SchedState.init Nat) 7 2 0).1 7 ⟨[], none⟩ 0).1 0
      = some 2 ∧
    (2 : Int) ≠ 2000000000 := by decide

/-- Claim C2 (code bug): with timeout value `2` — two seconds under
`Prepare`'s seconds reading — an `Append` arriving 1 s after `Prepare`
(strictly inside the window) rearms the timer for only 2 ns, so by 1.1 s
(strictly less than the timeout after that `Append`) the expiry callback has
already fired with the session auto-finalized, contradicting the claim that
appends arriving strictly within the timeout prevent auto-finalization
indefinitely. -/
theorem claim_C2_periodic_append_expiry_code_bug :
    (runTo (SchedState.init Nat)
        [(0, Event.prepare 7 2), (1000000000, Event.append 7 ⟨[], none⟩)]
        1100000000).fired = [(0, 7, none)] ∧
    mapGet (runTo (SchedState.init Nat)
        [(0, Event.prepare 7 2), (1000000000, Event.append 7 ⟨[], none⟩)]
        1100000000).sessions 7 = none ∧
    (1000000000 : Int) - 0 < 2 * nsPerSecond ∧
    (1100000000 : Int) - 1000000000 < 2 * nsPerSecond := by decide

/-- Claim C3: when the armed timer fires, `cb` is invoked exactly once and
only if the key is still present, with a nil error (the internal `Finish`
cannot fail after the presence check); if the key was already removed —
e.g. by `Finish(k)` before the deadline — `cb` is never invoked, whatever
operations follow.  Conjuncts: (1) after `Prepare k` at `t0` and `Finish k`
at `t1` before the deadline, the callback armed by that `Prepare` (timer 0)
never fires in any continuation; (2) in any execution each timer's callback
is invoked at most once; (3) every invocation carries a nil error;
(4) a firing whose captured key is absent invokes no callback;
(5) a firing whose captured key is present invokes the callback exactly
once, with a nil error. -/
theorem claim_C3_expiry_callback {K : Type} [DecidableEq K] (k : K)
    (d t0 t1 tEnd : Int) (evs : List (Int × Event K))
    (hb : t1 < t0 + wrap64 (nsPerSecond * d)) :
    (0 ∉ firedTids (runTo (SchedState.init K)
        ((t0, Event.prepare k d) :: (t1, Event.finish k) :: evs) tEnd)) ∧
    (∀ evs2 : List (Int × Event K), ∀ t2 : Int,
      (firedTids (runTo (SchedState.init K) evs2 t2)).Nodup) ∧
    (∀ evs2 : List (Int × Event K), ∀ t2 : Int,
      ∀ p ∈ (runTo (SchedState.init K) evs2 t2).fired,
        (p.2.2 : Option String) = none) ∧
    (∀ s : SchedState K, ∀ tid : Nat, ∀ ts : TimerState K,
      mapGet s.timers tid = some ts → mapGet s.sessions ts.key = none →
      (fireTimer s tid).fired = s.fired) ∧
    (∀ s : SchedState K, ∀ tid : Nat, ∀ ts : TimerState K, ∀ u : upload,
      mapGet s.timers tid = some ts → ts.active = true →
      mapGet s.sessions ts.key = some u →
      (fireTimer s tid).fired = s.fired ++ [(tid, ts.key, none)]) := by
  refine ⟨?_, ?_, ?_, ?_, ?_⟩
  · -- the Finish before the deadline killed timer 0 for good
    have hps := @prepare_finish_state K _ k d t0 t1 hb
    have hwf : WF (step (step (SchedState.init K) t0 (Event.prepare k d)) t1
        (Event.finish k)) := WF_step (WF_step WF_init)
    rw [hps] at hwf
    have hdead : deadTimer
        (⟨[], [(0, ⟨k, t0 + wrap64 (nsPerSecond * d), false⟩)], 1, []⟩ : SchedState K) 0 := by
      refine ⟨Nat.zero_lt_one, ?_, ?_⟩
      · intro p hp
        simp at hp
      · intro ts hmem
        rw [List.mem_singleton] at hmem
        have : ts = ⟨k, t0 + wrap64 (nsPerSecond * d), false⟩ :=
          congrArg Prod.snd hmem
        rw [this]
    have hrw : runTo (SchedState.init K)
        ((t0, Event.prepare k d) :: (t1, Event.finish k) :: evs) tEnd =
        runTo (⟨[], [(0, ⟨k, t0 + wrap64 (nsPerSecond * d), false⟩)], 1, []⟩ : SchedState K)
          evs tEnd := by
      show advanceTo (run (step (step (SchedState.init K) t0 (Event.prepare k d)) t1
        (Event.finish k)) evs) tEnd = _
      rw [hps]
      rfl
    rw [hrw]
    exact dead_runTo hwf hdead (by simp [firedTids])
  · intro evs2 t2
    exact (WF_runTo WF_init).firedNodup
  · intro evs2 t2
    refine firedNone_runTo ?_
    intro p hp
    simp [SchedState.init] at hp
  · intro s tid ts hg hk
    cases ha : ts.active with
    | false => rw [fireTimer_inactive hg ha]
    | true => rw [fireTimer_gone hg ha hk]
  · intro s tid ts u hg ha hk
    rw [fireTimer_present hg ha hk]

/-- Witness for C3 at `k = 1`, `d = 1`, `t0 = 0`, `t1 = 5`, no further
events: `5 < wrap64 (10^9)` holds, so the theorem applies. -/
theorem claim_C3_expiry_callback_witness :
    ((5 : Int) < 0 + wrap64 (nsPerSecond * 1)) ∧
    ((0 ∉ firedTids (runTo (SchedState.init Nat)
        ((0, Event.prepare 1 1) :: (5, Event.finish 1) :: []) 10000000000)) ∧
    (∀ evs2 : List (Int × Event Nat), ∀ t2 : Int,
      (firedTids (runTo (SchedState.init Nat) evs2 t2)).Nodup) ∧
    (∀ evs2 : List (Int × Event Nat), ∀ t2 : Int,
      ∀ p ∈ (runTo (SchedState.init Nat) evs2 t2).fired,
        (p.2.2 : Option String) = none) ∧
    (∀ s : SchedState Nat, ∀ tid : Nat, ∀ ts : TimerState Nat,
      mapGet s.timers tid = some ts → mapGet s.sessions ts.key = none →
      (fireTimer s tid).fired = s.fired) ∧
    (∀ s : SchedState Nat, ∀ tid : Nat, ∀ ts : TimerState Nat, ∀ u : upload,
      mapGet s.timers tid = some ts → ts.active = true →
      mapGet s.sessions ts.key = some u →
      (fireTimer s tid).fired = s.fired ++ [(tid, ts.key, none)])) :=
  ⟨by decide, claim_C3_expiry_callback 1 1 0 5 10000000000 [] (by decide)⟩

/-- Claim C4: the per-key lifecycle is exactly absent/active.
Conjuncts: (1) `Prepare` on an absent key succeeds and makes it active with
the new session record — the only absent→active transition; (2) `Prepare` on
an active key fails with "already exists" and changes nothing; (3) `Prepare`
touches no other key; (4) `Append` changes no key's membership (self-loop);
(5) `Append` on an absent key fails with "does not exist" and changes
nothing; (6) `Finish` on an active key succeeds and makes it absent;
(7) `Finish` touches no other key; (8) `Finish` on an absent key fails with
"does not exist" and changes nothing; (9) a timer firing while its captured
key is active makes exactly that key absent; (10) any timer firing either
leaves the registry unchanged or removes exactly its captured key — no other
transition exists; (11) every reachable state has at most one session per
key. -/
theorem claim_C4_lifecycle {K : Type} [DecidableEq K] (s : SchedState K)
    (k k2 : K) (d t : Int) (c : CopyOutcome) (tid : Nat) :
    (mapGet s.sessions k = none →
      (Prepare s k d t).2 = none ∧
      mapGet (Prepare s k d t).1.sessions k = some { timeout := d, timer := s.nextTimer }) ∧
    (∀ u : upload, mapGet s.sessions k = some u →
      Prepare s k d t = (s, some "upload key already exists")) ∧
    (k2 ≠ k → mapGet (Prepare s k d t).1.sessions k2 = mapGet s.sessions k2) ∧
    ((Append s k c t).1.sessions = s.sessions) ∧
    (mapGet s.sessions k = none →
      Append s k c t = (s, some "upload key does not exist", [])) ∧
    (∀ u : upload, mapGet s.sessions k = some u →
      (Finish s k).2 = none ∧ mapGet (Finish s k).1.sessions k = none) ∧
    (k2 ≠ k → mapGet (Finish s k).1.sessions k2 = mapGet s.sessions k2) ∧
    (mapGet s.sessions k = none → Finish s k = (s, some "upload key does not exist")) ∧
    (∀ ts : TimerState K, ∀ u : upload,
      mapGet s.timers tid = some ts → ts.active = true →
      mapGet s.sessions ts.key = some u →
      mapGet (fireTimer s tid).sessions ts.key = none ∧
      ∀ k3, k3 ≠ ts.key →
        mapGet (fireTimer s tid).sessions k3 = mapGet s.sessions k3) ∧
    ((fireTimer s tid).sessions = s.sessions ∨
      ∃ ts : TimerState K, mapGet s.timers tid = some ts ∧ ts.active = true ∧
        (fireTimer s tid).sessions = mapDel s.sessions ts.key) ∧
    (∀ evs : List (Int × Event K), ∀ tEnd : Int,
      ((runTo (SchedState.init K) evs tEnd).sessions.map Prod.fst).Nodup) := by
  refine ⟨?_, ?_, ?_, ?_, ?_, ?_, ?_, ?_, ?_, ?_, ?_⟩
  · intro hg
    rw [Prepare_new hg]
    exact ⟨rfl, mapGet_mapSet_self⟩
  · intro u hg
    exact Prepare_dup hg
  · intro hne
    cases hg : mapGet s.sessions k with
    | some u => rw [Prepare_dup hg]
    | none =>
      rw [Prepare_new hg]
      exact mapGet_mapSet_ne hne
  · cases hg : mapGet s.sessions k with
    | none => rw [Append_absent hg]
    | some u => rw [Append_state hg]
  · intro hg
    exact Append_absent hg
  · intro u hg
    rw [Finish_present hg]
    exact ⟨rfl, mapGet_mapDel_self⟩
  · intro hne
    cases hg : mapGet s.sessions k with
    | none => rw [Finish_absent hg]
    | some u =>
      rw [Finish_present hg]
      exact mapGet_mapDel_ne hne
  · intro hg
    exact Finish_absent hg
  · intro ts u hg ha hk
    rw [fireTimer_present hg ha hk]
    exact ⟨mapGet_mapDel_self, fun k3 hk3 => mapGet_mapDel_ne hk3⟩
  · cases hg : mapGet s.timers tid with
    | none => exact Or.inl (by rw [fireTimer_no_timer hg])
    | some ts =>
      cases ha : ts.active with
      | false => exact Or.inl (by rw [fireTimer_inactive hg ha])
      | true =>
        cases hk : mapGet s.sessions ts.key with
        | none => exact Or.inl (by rw [fireTimer_gone hg ha hk])
        | some u =>
          exact Or.inr ⟨ts, rfl, ha, by rw [fireTimer_present hg ha hk]⟩
  · intro evs tEnd
    exact (WF_runTo WF_init).sessNodup

/-- Witness for C4: concrete instances of the absent→active transition, the
unknown-key `Finish` rejection, and the uniqueness invariant after a run. -/
theorem claim_C4_lifecycle_witness :
    ((Prepare (SchedState.init Nat) 1 5 0).2 = none ∧
      mapGet (Prepare (SchedState.init Nat) 1 5 0).1.sessions 1 = some ⟨5, 0⟩) ∧
    Finish (SchedState.init Nat) 1 = (SchedState.init Nat, some "upload key does not exist") ∧
    Append (SchedState.init Nat) 1 ⟨[3], none⟩ 0
      = (SchedState.init Nat, some "upload key does not exist", []) ∧
    ((runTo (SchedState.init Nat) [(0, Event.prepare 1 5), (1, Event.prepare 2 5)]
        2).sessions.map Prod.fst).Nodup := by
  have h := claim_C4_lifecycle (SchedState.init Nat) 1 2 5 0 ⟨[3], none⟩ 0
  refine ⟨h.1 rfl, h.2.2.2.2.2.2.2.1 rfl, h.2.2.2.2.1 rfl, ?_⟩
  exact h.2.2.2.2.2.2.2.2.2.2 [(0, Event.prepare 1 5), (1, Event.prepare 2 5)] 2

/-- Claim C5: a second `Prepare` on an active key returns exactly the
"upload key already exists" error and leaves the entire state — registry,
every timer, the allocation counter — untouched (so no session is created,
no timer armed, and the original session's timeout and timer state are
intact); and on any key with no active session `Prepare` returns no error,
so the duplicate key is the only error condition. -/
theorem claim_C5_duplicate_prepare {K : Type} [DecidableEq K]
    (s : SchedState K) (k k2 : K) (u : upload) (d d2 t t2 : Int)
    (hdup : mapGet s.sessions k = some u)
    (habs : mapGet s.sessions k2 = none) :
    Prepare s k d t = (s, some "upload key already exists") ∧
    (Prepare s k2 d2 t2).2 = none := by
  refine ⟨Prepare_dup hdup, ?_⟩
  rw [Prepare_new habs]

/-- Witness for C5: with key 1 active, a second `Prepare 1` is rejected with
the state unchanged, while `Prepare 2` succeeds. -/
theorem claim_C5_duplicate_prepare_witness :
    Prepare (Prepare (SchedState.init Nat) 1 5 0).1 1 7 3
      = ((Prepare (SchedState.init Nat) 1 5 0).1, some "upload key already exists") ∧
    (Prepare (Prepare (SchedState.init Nat) 1 5 0).1 2 7 3).2 = none :=
  claim_C5_duplicate_prepare (Prepare (SchedState.init Nat) 1 5 0).1 1 2 ⟨5, 0⟩ 7 7 3 3
    (by decide) (by decide)

/-- Claim C6: on a key with no active session, `Append` and `Finish` both
return exactly the "upload key does not exist" error, the state is returned
unchanged (registry, every other session, every timer), and `Append` writes
no bytes to the destination. -/
theorem claim_C6_unknown_key {K : Type} [DecidableEq K] (s : SchedState K)
    (k : K) (c : CopyOutcome) (t : Int)
    (habs : mapGet s.sessions k = none) :
    Append s k c t = (s, some "upload key does not exist", []) ∧
    Finish s k = (s, some "upload key does not exist") :=
  ⟨Append_absent habs, Finish_absent habs⟩

/-- Witness for C6: key 9 was never prepared while key 1 is active; both
operations on 9 are rejected with the state unchanged and no bytes written. -/
theorem claim_C6_unknown_key_witness :
    Append (Prepare (SchedState.init Nat) 1 5 0).1 9 ⟨[1, 2], none⟩ 3
      = ((Prepare (SchedState.init Nat) 1 5 0).1, some "upload key does not exist", []) ∧
    Finish (Prepare (SchedState.init Nat) 1 5 0).1 9
      = ((Prepare (SchedState.init Nat) 1 5 0).1, some "upload key does not exist") :=
  claim_C6_unknown_key (Prepare (SchedState.init Nat) 1 5 0).1 9 ⟨[1, 2], none⟩ 3 (by decide)

/-- Claim C7: when the copy inside `Append` fails with error `e`, the call
returns the error `"unable to append chunk to destination file: " ++ e`
(the copy error wrapped with the documented message), the session stays
active with its record unchanged, its timer is rearmed — armed, with
deadline `now + u.timeout`, the full stored timeout from the moment of the
call — and the timers end up exactly as a successful `Append` at the same
instant would leave them. -/
theorem claim_C7_copy_failure_rearm {K : Type} [DecidableEq K]
    (s : SchedState K) (k : K) (u : upload) (ts : TimerState K)
    (w : List Nat) (e : String) (t : Int)
    (hget : mapGet s.sessions k = some u)
    (hts : mapGet s.timers u.timer = some ts) :
    (Append s k ⟨w, some e⟩ t).2.1
      = some ("unable to append chunk to destination file: " ++ e) ∧
    (Append s k ⟨w, some e⟩ t).1.sessions = s.sessions ∧
    mapGet (Append s k ⟨w, some e⟩ t).1.sessions k = some u ∧
    mapGet (Append s k ⟨w, some e⟩ t).1.timers u.timer
      = some { key := ts.key, deadline := t + u.timeout, active := true } ∧
    (Append s k ⟨w, some e⟩ t).1.timers = (Append s k ⟨w, none⟩ t).1.timers := by
  refine ⟨?_, ?_, ?_, ?_, ?_⟩
  · rw [Append_fail hget]
  · rw [Append_fail hget]
  · rw [Append_fail hget]
    exact hget
  · rw [Append_fail hget]
    show mapGet (timerReset (timerStop s.timers u.timer) u.timer (t + u.timeout)) u.timer = _
    rw [timerReset_get_self (timerStop_get_self hts)]
  · rw [Append_fail hget, Append_ok hget]

/-- Witness for C7 at a concrete failing copy on an active key. -/
theorem claim_C7_copy_failure_rearm_witness :
    (Append (Prepare (SchedState.init Nat) 1 5 0).1 1 ⟨[4], some "disk full"⟩ 3).2.1
      = some ("unable to append chunk to destination file: " ++ "disk full") ∧
    (Append (Prepare (SchedState.init Nat) 1 5 0).1 1 ⟨[4], some "disk full"⟩ 3).1.sessions
      = (Prepare (SchedState.init Nat) 1 5 0).1.sessions ∧
    mapGet (Append (Prepare (SchedState.init Nat) 1 5 0).1 1
        ⟨[4], some "disk full"⟩ 3).1.sessions 1 = some ⟨5, 0⟩ ∧
    mapGet (Append (Prepare (SchedState.init Nat) 1 5 0).1 1
        ⟨[4], some "disk full"⟩ 3).1.timers 0
      = some { key := 1, deadline := 3 + 5, active := true } ∧
    (Append (Prepare (SchedState.init Nat) 1 5 0).1 1 ⟨[4], some "disk full"⟩ 3).1.timers
      = (Append (Prepare (SchedState.init Nat) 1 5 0).1 1 ⟨[4], none⟩ 3).1.timers := by
  have h := claim_C7_copy_failure_rearm (Prepare (SchedState.init Nat) 1 5 0).1 1
    ⟨5, 0⟩ ⟨1, 5000000000, true⟩ [4] "disk full" 3 (by decide) (by decide)
  exact h

/-- Claim C8: `Finish` on an active key returns no error, removes the
session from the registry, and stops (disarms) its timer in place; a second
`Finish` then returns the "upload key does not exist" error — reported, not
suppressed — with no further state change. -/
theorem claim_C8_finish {K : Type} [DecidableEq K] (s : SchedState K) (k : K)
    (u : upload) (ts : TimerState K)
    (hget : mapGet s.sessions k = some u)
    (hts : mapGet s.timers u.timer = some ts) :
    (Finish s k).2 = none ∧
    mapGet (Finish s k).1.sessions k = none ∧
    mapGet (Finish s k).1.timers u.timer = some { ts with active := false } ∧
    Finish (Finish s k).1 k = ((Finish s k).1, some "upload key does not exist") := by
  refine ⟨?_, ?_, ?_, ?_⟩
  · rw [Finish_present hget]
  · rw [Finish_present hget]
    exact mapGet_mapDel_self
  · rw [Finish_present hget]
    exact timerStop_get_self hts
  · apply Finish_absent
    rw [Finish_present hget]
    exact mapGet_mapDel_self

/-- Witness for C8 on a freshly prepared key. -/
theorem claim_C8_finish_witness :
    (Finish (Prepare (SchedState.init Nat) 1 5 0).1 1).2 = none ∧
    mapGet (Finish (Prepare (SchedState.init Nat) 1 5 0).1 1).1.sessions 1 = none ∧
    mapGet (Finish (Prepare (SchedState.init Nat) 1 5 0).1 1).1.timers 0
      = some { key := 1, deadline := 5000000000, active := false } ∧
    Finish (Finish (Prepare (SchedState.init Nat) 1 5 0).1 1).1 1
      = ((Finish (Prepare (SchedState.init Nat) 1 5 0).1 1).1,
         some "upload key does not exist") := by
  have h := claim_C8_finish (Prepare (SchedState.init Nat) 1 5 0).1 1 ⟨5, 0⟩
    ⟨1, 5000000000, true⟩ (by decide) (by decide)
  exact h

/-- Claim C9 counterexample: `Prepare` indeed accepts any timeout, but for
`timeout = -9223372037` the int64 multiplication
`time.Second * time.Duration(timeout)` overflows and wraps to the *positive*
duration `9223372036709551616` ns (about 292 years), so this negative
timeout arms a positive deadline and the session is *not* eligible for
immediate auto-finalization when `Prepare` returns (no timer is due). -/
theorem claim_C9_counterexample :
    (Prepare (SchedState.init Nat) 0 (-9223372037) 0).2 = none ∧
    mapGet (Prepare (SchedState.init Nat) 0 (-9223372037) 0).1.timers 0
      = some { key := 0, deadline := 9223372036709551616, active := true } ∧
    ((-9223372037 : Int) < 0) ∧
    ((0 : Int) < 9223372036709551616) ∧
    dueTimers (Prepare (SchedState.init Nat) 0 (-9223372037) 0).1 0 = [] := by
  decide

/-- Claim C9 as amended: `Prepare` validates nothing — it succeeds for every
timeout value on a non-active key — and for every zero or negative timeout
*whose seconds-scaling does not overflow int64*, the armed duration
`10^9 * timeout` is non-positive, so the deadline is already reached and the
new session's timer is due (eligible for immediate auto-finalization) the
moment `Prepare` returns.  (Without the no-overflow proviso the armed
duration can wrap positive; see the counterexample.) -/
theorem claim_C9_amended {K : Type} [DecidableEq K] (s : SchedState K)
    (k : K) (d t : Int) (habs : mapGet s.sessions k = none) :
    (Prepare s k d t).2 = none ∧
    (d ≤ 0 → -(2 ^ 63) ≤ nsPerSecond * d →
      mapGet (Prepare s k d t).1.timers s.nextTimer
        = some { key := k, deadline := t + nsPerSecond * d, active := true } ∧
      t + nsPerSecond * d ≤ t ∧
      s.nextTimer ∈ dueTimers (Prepare s k d t).1 t) := by
  have hfirst : (Prepare s k d t).2 = none := by rw [Prepare_new habs]
  refine ⟨hfirst, ?_⟩
  intro hd hlow
  have hnp : nsPerSecond * d ≤ 0 :=
    mul_nonpos_of_nonneg_of_nonpos (by norm_num [nsPerSecond]) hd
  have hw : wrap64 (nsPerSecond * d) = nsPerSecond * d :=
    wrap64_eq_self hlow (lt_of_le_of_lt hnp (by norm_num))
  refine ⟨?_, by linarith, ?_⟩
  · rw [Prepare_new habs]
    show mapGet (mapSet s.timers s.nextTimer
      { key := k, deadline := t + wrap64 (nsPerSecond * d), active := true }) s.nextTimer = _
    rw [mapGet_mapSet_self, hw]
  · rw [Prepare_new habs]
    show s.nextTimer ∈ dueTimers
      (⟨mapSet s.sessions k { timeout := d, timer := s.nextTimer },
        mapSet s.timers s.nextTimer
          { key := k, deadline := t + wrap64 (nsPerSecond * d), active := true },
        s.nextTimer + 1, s.fired⟩ : SchedState K) t
    unfold dueTimers
    apply List.mem_map.mpr
    refine ⟨(s.nextTimer,
      { key := k, deadline := t + wrap64 (nsPerSecond * d), active := true }), ?_, rfl⟩
    apply List.mem_filter.mpr
    refine ⟨mapSet_self_mem, ?_⟩
    show (true && decide (t + wrap64 (nsPerSecond * d) ≤ t)) = true
    rw [Bool.true_and, hw]
    exact decide_eq_true (by linarith)

/-- Witness for C9 (amended) at timeout `-5`: `Prepare` succeeds, arms the
deadline `-5 * 10^9` ns in the past, and the timer is immediately due. -/
theorem claim_C9_amended_witness :
    (Prepare (SchedState.init Nat) 0 (-5) 0).2 = none ∧
    ((-5 : Int) ≤ 0 → -(2 ^ 63) ≤ nsPerSecond * (-5) →
      mapGet (Prepare (SchedState.init Nat) 0 (-5) 0).1.timers
          (SchedState.init Nat).nextTimer
        = some { key := 0, deadline := 0 + nsPerSecond * (-5), active := true } ∧
      (0 : Int) + nsPerSecond * (-5) ≤ 0 ∧
      (SchedState.init Nat).nextTimer
        ∈ dueTimers (Prepare (SchedState.init Nat) 0 (-5) 0).1 0) :=
  claim_C9_amended (SchedState.init Nat) 0 (-5) 0 (by decide)

/-- Claim C10: `Append` never changes registry membership or any stored
session record — the whole session list is returned unchanged, as are the
timer-allocation counter and the fired log; when the key is active only its
own timer's entry changes, and only in its armed deadline and armed flag
(the captured key is preserved); every other timer is untouched; when the
key is absent the state is returned entirely unchanged. -/
theorem claim_C10_append_frame {K : Type} [DecidableEq K] (s : SchedState K)
    (k : K) (c : CopyOutcome) (t : Int) :
    (Append s k c t).1.sessions = s.sessions ∧
    (Append s k c t).1.nextTimer = s.nextTimer ∧
    (Append s k c t).1.fired = s.fired ∧
    (∀ u : upload, mapGet s.sessions k = some u →
      ∀ tid : Nat, tid ≠ u.timer →
        mapGet (Append s k c t).1.timers tid = mapGet s.timers tid) ∧
    (∀ u : upload, ∀ ts : TimerState K, mapGet s.sessions k = some u →
      mapGet s.timers u.timer = some ts →
      mapGet (Append s k c t).1.timers u.timer
        = some { key := ts.key, deadline := t + u.timeout, active := true }) ∧
    (mapGet s.sessions k = none → (Append s k c t).1 = s) := by
  refine ⟨?_, ?_, ?_, ?_, ?_, ?_⟩
  · cases hg : mapGet s.sessions k with
    | none => rw [Append_absent hg]
    | some u => rw [Append_state hg]
  · cases hg : mapGet s.sessions k with
    | none => rw [Append_absent hg]
    | some u => rw [Append_state hg]
  · cases hg : mapGet s.sessions k with
    | none => rw [Append_absent hg]
    | some u => rw [Append_state hg]
  · intro u hu tid htid
    rw [Append_state hu]
    show mapGet (timerReset (timerStop s.timers u.timer) u.timer (t + u.timeout)) tid
      = mapGet s.timers tid
    rw [timerReset_get_ne htid, timerStop_get_ne htid]
  · intro u ts hu hts
    rw [Append_state hu]
    show mapGet (timerReset (timerStop s.timers u.timer) u.timer (t + u.timeout)) u.timer = _
    rw [timerReset_get_self (timerStop_get_self hts)]
  · intro hg
    rw [Append_absent hg]

/-- Witness for C10 at a concrete two-key state and a failing copy. -/
theorem claim_C10_append_frame_witness :
    (Append (run (SchedState.init Nat) [(0, Event.prepare 1 5), (0, Event.prepare 2 9)])
        1 ⟨[8], some "boom"⟩ 3).1.sessions
      = (run (SchedState.init Nat) [(0, Event.prepare 1 5), (0, Event.prepare 2 9)]).sessions ∧
    (Append (run (SchedState.init Nat) [(0, Event.prepare 1 5), (0, Event.prepare 2 9)])
        1 ⟨[8], some "boom"⟩ 3).1.nextTimer
      = (run (SchedState.init Nat) [(0, Event.prepare 1 5), (0, Event.prepare 2 9)]).nextTimer ∧
    (Append (run (SchedState.init Nat) [(0, Event.prepare 1 5), (0, Event.prepare 2 9)])
        1 ⟨[8], some "boom"⟩ 3).1.fired
      = (run (SchedState.init Nat) [(0, Event.prepare 1 5), (0, Event.prepare 2 9)]).fired ∧
    mapGet (Append (run (SchedState.init Nat)
          [(0, Event.prepare 1 5), (0, Event.prepare 2 9)])
        1 ⟨[8], some "boom"⟩ 3).1.timers 1
      = mapGet (run (SchedState.init Nat)
          [(0, Event.prepare 1 5), (0, Event.prepare 2 9)]).timers 1 ∧
    mapGet (Append (run (SchedState.init Nat)
          [(0, Event.prepare 1 5), (0, Event.prepare 2 9)])
        1 ⟨[8], some "boom"⟩ 3).1.timers 0
      = some { key := 1, deadline := 3 + 5, active := true } := by
  have h := claim_C10_append_frame
    (run (SchedState.init Nat) [(0, Event.prepare 1 5), (0, Event.prepare 2 9)])
    1 ⟨[8], some "boom"⟩ 3
  refine ⟨h.1, h.2.1, h.2.2.1, ?_, ?_⟩
  · exact h.2.2.2.1 ⟨5, 0⟩ (by decide) 1 (by decide)
  · exact h.2.2.2.2.1 ⟨5, 0⟩ ⟨1, 5000000000, true⟩ (by decide) (by decide)

end Sched

end Gouda
